import Mathlib

/-!
Verification of `moztelemetry/histogram.py` (class `Histogram`).

Shallow embedding conventions:
* Numeric bucket boundaries and counts are modelled as rationals (`ℚ`);
  Python/NumPy floating-point results that can be NaN or infinite are
  modelled by the `PyFloat` type below.
* A `pandas.Series` with a numeric index is modelled as an association
  list `List (ℚ × ℚ)` of (index label, value) pairs in index order.
* The externally resolved histogram definition (`histogram_tools.Histogram`,
  an external collaborator: `kind()`, `n_buckets()`, `ranges()`) is modelled
  as the read-only structure `HistogramDefinition`.
* Python exceptions (failed `assert`, `KeyError`/`IndexError`, pandas
  construction errors) are modelled by `Option`/an error constructor.
-/

namespace Moztelemetry

/-- A Python/NumPy floating-point result: a finite rational, one of the two
infinities, or NaN. -/
inductive PyFloat where
  | nan : PyFloat
  | inf : PyFloat
  | ninf : PyFloat
  | val : ℚ → PyFloat
deriving DecidableEq

/-- IEEE-style ordering on `PyFloat`: every comparison involving NaN is false. -/
def pyLe : PyFloat → PyFloat → Bool
  | PyFloat.nan, _ => false
  | _, PyFloat.nan => false
  | PyFloat.ninf, _ => true
  | _, PyFloat.inf => true
  | PyFloat.val a, PyFloat.val b => decide (a ≤ b)
  | _, _ => false

/-- Lifting of `pyLe` to possibly-failed computations: a failed computation
compares as false. -/
def pyLeOpt : Option PyFloat → Option PyFloat → Bool
  | some a, some b => pyLe a b
  | _, _ => false

/-- The external histogram definition consumed read-only by the core
(`histogram_tools.Histogram`): semantic kind, bucket count (`n_buckets()`),
and the ordered bucket lower boundaries (`ranges()`). -/
structure HistogramDefinition where
  kind : String
  nBuckets : Nat
  ranges : List ℚ
deriving DecidableEq

/-- The core entity: measurement name, kind copied from the definition, and
the bucket series mapping each boundary label to its count
(`self.buckets`, a `pandas.Series` indexed by `definition.ranges()`). -/
structure Histogram where
  name : String
  kind : String
  buckets : List (ℚ × ℚ)
deriving DecidableEq

/-- The histogram kinds for which `percentile` is defined
(`self.kind in ["exponential", "linear", "enumerated", "boolean"]`). -/
def eligibleKinds : List String := ["exponential", "linear", "enumerated", "boolean"]

/-- `instance[:-5] if len(instance) != n_buckets else instance`:
the dense construction path keeps the sequence verbatim when its length is
exactly `n_buckets`, otherwise drops the trailing 5 statistical metadata
values (`sum, log_sum, log_sum_squared, min, max`). -/
def denseValues (raw : List ℚ) (d : HistogramDefinition) : List ℚ :=
  if raw.length = d.nBuckets then raw else raw.take (raw.length - 5)

/-- `pd.Series(values, index=ranges)` for a plain value sequence: pandas
raises `ValueError` when the lengths differ, modelled as `none`. -/
def mkSeries (values : List ℚ) (index : List ℚ) : Option (List (ℚ × ℚ)) :=
  if values.length = index.length then some (index.zip values) else none

/-- Dense-sequence construction path of `Histogram.__init__`. -/
def constructDense (name : String) (raw : List ℚ) (d : HistogramDefinition) :
    Option Histogram :=
  (mkSeries (denseValues raw d) d.ranges).map (fun bl => Histogram.mk name d.kind bl)

/-- Dictionary lookup of a numeric index label among the integer-cast sparse
entries (`{int(k): v for k, v in instance["values"].items()}`): the count
whose integer key equals the boundary label, if any. -/
def lookupEntry (entries : List (Int × ℚ)) (r : ℚ) : Option ℚ :=
  (entries.find? (fun e => decide ((e.1 : ℚ) = r))).map Prod.snd

/-- Sparse-mapping construction path of `Histogram.__init__`:
`pd.Series(entries, index=ranges).fillna(0)` — every boundary label takes the
entry whose integer-cast key equals that label, defaulting to 0.  Keys that
match no boundary label are dropped by the index alignment. -/
def constructSparse (name : String) (entries : List (Int × ℚ))
    (d : HistogramDefinition) : Histogram :=
  Histogram.mk name d.kind
    (d.ranges.map (fun r => (r, (lookupEntry entries r).getD 0)))

/-- `pandas` label lookup `series[label]` on the bucket series: the value of
the first pair whose index label equals `label`; `none` models `KeyError`. -/
def seriesGet (b : List (ℚ × ℚ)) (label : ℚ) : Option ℚ :=
  (b.find? (fun e => decide (e.1 = label))).map Prod.snd

/-- The cumulative walk of `Histogram.percentile`: starting from the running
target `t`, scan the bucket frequencies in order; at each bucket stop if
`t - freq <= 0`, else subtract `freq` and continue.  Returns the offset of
the stopping bucket (the list length if no bucket stops the walk) together
with the remaining target at that point. -/
def walk : List ℚ → ℚ → Nat × ℚ
  | [], t => (0, t)
  | f :: rest, t =>
    if t - f ≤ 0 then (0, t)
    else
      let w := walk rest (t - f)
      (w.1 + 1, w.2)

/-- Sum of all bucket counts (`self.buckets.sum()`). -/
def totalCount (h : Histogram) : ℚ := (h.buckets.map Prod.snd).sum

/-- The loop state of `Histogram.percentile` after the `for` loop over the
bucket series `b`: `to_count = (p/100) * buckets.sum()` walked through the
bucket frequencies. -/
def stopState (b : List (ℚ × ℚ)) (p : ℚ) : Nat × ℚ :=
  walk (b.map Prod.snd) (p / 100 * (b.map Prod.snd).sum)

/-- The final value of the Python loop variable `percentile_bucket`: the
stopping offset, except that a walk that never stops leaves the loop
variable at the last position `len - 1`. -/
def stopBucket (b : List (ℚ × ℚ)) (p : ℚ) : Nat :=
  min (stopState b p).1 (b.length - 1)

/-- The NumPy expression
`percentile_lower_boundary + width * to_count / percentile_frequency`
with IEEE division semantics when `percentile_frequency == 0`
(`0/0 = NaN`, `x/0 = ±inf`). -/
def interp (lower width r f : ℚ) : PyFloat :=
  if f = 0 then
    if width * r = 0 then PyFloat.nan
    else if 0 < width * r then PyFloat.inf
    else PyFloat.ninf
  else PyFloat.val (lower + width * r / f)

/-- Body of `Histogram.percentile` after the two asserts: walk the buckets,
return NaN when the loop ends on the last bucket
(`percentile_bucket == len(self.buckets) - 1`), otherwise linearly
interpolate inside the stopping bucket. -/
def percentileCore (b : List (ℚ × ℚ)) (p : ℚ) : PyFloat :=
  if stopBucket b p = b.length - 1 then PyFloat.nan
  else
    interp ((b.map Prod.fst).getD (stopBucket b p) 0)
      ((b.map Prod.fst).getD (stopBucket b p + 1) 0 -
        (b.map Prod.fst).getD (stopBucket b p) 0)
      (stopState b p).2
      ((b.map Prod.snd).getD (stopBucket b p) 0)

/-- `Histogram.percentile`: `none` models a raised exception — the failed
`assert 0 <= percentile <= 100`, the failed kind assert, or the `IndexError`
hit on an empty bucket series. -/
def percentile (h : Histogram) (p : ℚ) : Option PyFloat :=
  if 0 ≤ p ∧ p ≤ 100 then
    if h.kind ∈ eligibleKinds then
      if h.buckets = [] then none
      else some (percentileCore h.buckets p)
    else none
  else none

/-- Result of `Histogram.get_value`: the raw bucket distribution, a median
(a float, possibly NaN), the scalar of a count histogram, the boolean of a
flag histogram, or a raised exception (`KeyError` / failed assert). -/
inductive Value where
  | dist : List (ℚ × ℚ) → Value
  | num : PyFloat → Value
  | scalar : ℚ → Value
  | flagVal : Bool → Value
  | err : Value
deriving DecidableEq

/-- `Histogram.get_value(only_median)`: kind dispatch.  For the
percentile-eligible kinds return the median or the raw series; for `count`
return `self.buckets[0]` (pandas label lookup of label 0); for `flag`
return `self.buckets[1] == 1` (label lookup of label 1); otherwise the
`assert False` models an unsupported kind. -/
def getValue (h : Histogram) (onlyMedian : Bool) : Value :=
  if h.kind ∈ eligibleKinds then
    if onlyMedian then
      match percentile h 50 with
      | some x => Value.num x
      | none => Value.err
    else Value.dist h.buckets
  else if h.kind = "count" then
    match seriesGet h.buckets 0 with
    | some v => Value.scalar v
    | none => Value.err
  else if h.kind = "flag" then
    match seriesGet h.buckets 1 with
    | some v => Value.flagVal (decide (v = 1))
    | none => Value.err
  else Value.err

/-- `pd.Series(series, index=ranges)` when the data is itself a Series:
pandas reindexes the data by label.  A label missing from the data yields a
NaN count, poisoning the histogram; that degenerate outcome is modelled as
`none`. -/
def reindex (s : List (ℚ × ℚ)) : List ℚ → Option (List (ℚ × ℚ))
  | [] => some []
  | r :: rest =>
    match s.find? (fun e => decide (e.1 = r)), reindex s rest with
    | some e, some tail => some ((r, e.2) :: tail)
    | _, _ => none

/-- `Histogram.__init__` when the instance is already a `pandas.Series`
(the path taken by `__add__`): the dense length check followed by the
label-aligning reconstruction against the freshly resolved definition. -/
def constructFromSeries (name : String) (s : List (ℚ × ℚ))
    (d : HistogramDefinition) : Option Histogram :=
  (reindex (if s.length = d.nBuckets then s else s.take (s.length - 5)) d.ranges).map
    (fun bl => Histogram.mk name d.kind bl)

/-- `self.buckets + other.buckets` for two series sharing the same index:
elementwise sum of the counts, keeping the labels. -/
def seriesAdd (a b : List (ℚ × ℚ)) : List (ℚ × ℚ) :=
  a.zipWith (fun x y => (x.1, x.2 + y.2)) b

/-- `Histogram.__add__`: build a new histogram from the summed series under
`self.name`.  The freshly re-resolved definition (a network fetch in the
source) is passed in explicitly as `d`.  A pandas `+` on series with
differing indexes produces a misaligned union (undefined behavior per the
spec); that case is modelled as `none`. -/
def combine (a b : Histogram) (d : HistogramDefinition) : Option Histogram :=
  if a.buckets.map Prod.fst = b.buckets.map Prod.fst then
    constructFromSeries a.name (seriesAdd a.buckets b.buckets) d
  else none

/-- The running target of `percentile`:
`to_count = (percentile/100) * self.buckets.sum()`. -/
def specTarget (h : Histogram) (p : ℚ) : ℚ :=
  p / 100 * (h.buckets.map Prod.snd).sum

/-- Stated from the spec's words: the first bucket offset `j` at which the
remaining target minus that bucket's frequency is `≤ 0`, where the remaining
target before bucket `j` is the target minus the frequencies already
consumed (the list length when no bucket satisfies this). -/
def specStopIdx (counts : List ℚ) (t : ℚ) : Nat :=
  (List.range counts.length).findIdx (fun j => decide (t - (counts.take (j + 1)).sum ≤ 0))

/-- Stated from the spec's words (claim C1): walk the buckets in ascending
boundary order accumulating the remaining target; when the stopping bucket
is the last one the percentile is NaN; otherwise return
`lower_boundary + width * remaining / freq` with `width` the next boundary
minus the stopping bucket's boundary. -/
def specPercentile (h : Histogram) (p : ℚ) : PyFloat :=
  if specStopIdx (h.buckets.map Prod.snd) (specTarget h p) + 1 = h.buckets.length then
    PyFloat.nan
  else
    interp
      ((h.buckets.map Prod.fst).getD
        (specStopIdx (h.buckets.map Prod.snd) (specTarget h p)) 0)
      ((h.buckets.map Prod.fst).getD
        (specStopIdx (h.buckets.map Prod.snd) (specTarget h p) + 1) 0 -
        (h.buckets.map Prod.fst).getD
          (specStopIdx (h.buckets.map Prod.snd) (specTarget h p)) 0)
      (specTarget h p -
        ((h.buckets.map Prod.snd).take
          (specStopIdx (h.buckets.map Prod.snd) (specTarget h p))).sum)
      ((h.buckets.map Prod.snd).getD
        (specStopIdx (h.buckets.map Prod.snd) (specTarget h p)) 0)

/-- Stated from the spec's words (claim C2): positional sparse construction —
each integer-cast key is treated as a bucket *position*, assigning its count
to the boundary at that position, absent positions defaulting to 0.  Stated
only for comparison with `constructSparse`, which is what the code does. -/
def constructSparseByPosition (name : String) (entries : List (Int × ℚ))
    (d : HistogramDefinition) : Histogram :=
  Histogram.mk name d.kind
    ((List.range d.ranges.length).map (fun j =>
      (d.ranges.getD j 0,
        ((entries.find? (fun e => decide (e.1 = (j : Int)))).map Prod.snd).getD 0)))

/-! ### Helper lemmas about the cumulative walk -/

lemma findIdx_map_comp {α β : Type} (l : List α) (f : α → β) (p : β → Bool) :
    (l.map f).findIdx p = l.findIdx (fun a => p (f a)) := by
  induction l with
  | nil => rfl
  | cons a t ih => simp [List.findIdx_cons, ih]

lemma findIdx_range_succ (n : Nat) (p : Nat → Bool) :
    (List.range (n + 1)).findIdx p =
      if p 0 then 0 else (List.range n).findIdx (fun j => p (j + 1)) + 1 := by
  rw [List.range_succ_eq_map, List.findIdx_cons, findIdx_map_comp]
  cases h : p 0 <;> simp [h, Nat.succ_eq_add_one]

lemma specStopIdx_nil (t : ℚ) : specStopIdx [] t = 0 := rfl

lemma specStopIdx_cons (f : ℚ) (rest : List ℚ) (t : ℚ) :
    specStopIdx (f :: rest) t =
      if t - f ≤ 0 then 0 else specStopIdx rest (t - f) + 1 := by
  unfold specStopIdx
  rw [List.length_cons, findIdx_range_succ]
  have h0 : (decide (t - ((f :: rest).take (0 + 1)).sum ≤ 0)) = decide (t - f ≤ 0) := by
    norm_num
  rw [h0]
  by_cases hc : t - f ≤ 0
  · simp [hc]
  · rw [if_neg (by simpa using hc), if_neg hc]
    congr 1
    congr 1
    funext j
    have : (f :: rest).take (j + 1 + 1) = f :: rest.take (j + 1) := List.take_succ_cons
    rw [this]
    simp only [List.sum_cons]
    apply decide_eq_decide.mpr
    constructor <;> intro <;> linarith

/-- The loop of `percentile` stops at the first offset where the remaining
target drops to zero or below, and the remaining target at the stop equals
the initial target minus the already-consumed frequencies. -/
lemma walk_eq (l : List ℚ) (t : ℚ) :
    walk l t = (specStopIdx l t, t - (l.take (specStopIdx l t)).sum) := by
  induction l generalizing t with
  | nil => simp [walk, specStopIdx_nil]
  | cons f rest ih =>
    rw [specStopIdx_cons]
    by_cases hc : t - f ≤ 0
    · simp [walk, hc]
    · rw [if_neg hc]
      simp only [walk, if_neg hc, ih (t - f), List.take_succ_cons, List.sum_cons]
      exact Prod.ext rfl (by ring)

lemma walk_fst_le (l : List ℚ) (t : ℚ) : (walk l t).1 ≤ l.length := by
  induction l generalizing t with
  | nil => simp [walk]
  | cons f rest ih =>
    by_cases hc : t - f ≤ 0
    · simp [walk, hc]
    · simp only [walk, if_neg hc, List.length_cons]
      exact Nat.succ_le_succ (ih (t - f))

/-- When the buckets are nonempty and the target does not exceed the total
mass, the walk stops strictly before the end. -/
lemma walk_fst_lt (l : List ℚ) (t : ℚ) (hne : l ≠ []) (ht : t ≤ l.sum) :
    (walk l t).1 < l.length := by
  induction l generalizing t with
  | nil => exact absurd rfl hne
  | cons f rest ih =>
    by_cases hc : t - f ≤ 0
    · simp [walk, hc]
    · cases rest with
      | nil =>
        exfalso
        simp only [List.sum_cons, List.sum_nil, add_zero] at ht
        exact hc (by linarith)
      | cons g rest2 =>
        simp only [walk, if_neg hc, List.length_cons]
        refine Nat.succ_lt_succ (ih (t - f) (by simp) ?_)
        simp only [List.sum_cons] at ht ⊢
        linarith

/-- At a stop inside the list, the remaining target is at most the stopping
bucket's frequency (the loop's break condition). -/
lemma walk_snd_le (l : List ℚ) (t : ℚ) (h : (walk l t).1 < l.length) :
    (walk l t).2 ≤ l.getD (walk l t).1 0 := by
  induction l generalizing t with
  | nil => simp at h
  | cons f rest ih =>
    by_cases hc : t - f ≤ 0
    · simp only [walk, if_pos hc]
      simp only [List.getD_cons_zero]
      linarith
    · simp only [walk, if_neg hc] at h ⊢
      simp only [List.length_cons, Nat.succ_lt_succ_iff] at h
      simpa only [List.getD_cons_succ] using ih (t - f) h

lemma walk_snd_nonneg (l : List ℚ) (t : ℚ) (hnn : ∀ q ∈ l, 0 ≤ q) (ht : 0 ≤ t) :
    0 ≤ (walk l t).2 := by
  induction l generalizing t with
  | nil => simpa [walk] using ht
  | cons f rest ih =>
    by_cases hc : t - f ≤ 0
    · simpa [walk, hc] using ht
    · simp only [walk, if_neg hc]
      exact ih (t - f) (fun q hq => hnn q (List.mem_cons_of_mem f hq)) (by linarith)

lemma walk_fst_mono (l : List ℚ) (t₁ t₂ : ℚ) (h : t₁ ≤ t₂) :
    (walk l t₁).1 ≤ (walk l t₂).1 := by
  induction l generalizing t₁ t₂ with
  | nil => simp [walk]
  | cons f rest ih =>
    by_cases h2 : t₂ - f ≤ 0
    · have h1 : t₁ - f ≤ 0 := by linarith
      simp [walk, h1, h2]
    · by_cases h1 : t₁ - f ≤ 0
      · simp [walk, h1]
      · simp only [walk, if_neg h1, if_neg h2]
        exact Nat.succ_le_succ (ih (t₁ - f) (t₂ - f) (by linarith))

/-- Inversion for the interpolation step: a finite result means the stopping
bucket's frequency was nonzero and the result is the interpolation formula. -/
lemma interp_eq_val (lower width r f x : ℚ) (h : interp lower width r f = PyFloat.val x) :
    f ≠ 0 ∧ x = lower + width * r / f := by
  by_cases hf : f = 0
  · exfalso
    simp only [interp, if_pos hf] at h
    by_cases h1 : width * r = 0
    · simp [h1] at h
    · by_cases h2 : 0 < width * r <;> simp [h1, h2] at h
  · refine ⟨hf, ?_⟩
    simp only [interp, if_neg hf, PyFloat.val.injEq] at h
    exact h.symm

/-- The loop body of `percentile` computes the spec's algorithm whenever the
walk stops inside the bucket list. -/
lemma percentileCore_eq_spec (h : Histogram) (p : ℚ)
    (hj : specStopIdx (h.buckets.map Prod.snd) (specTarget h p) + 1 ≤ h.buckets.length) :
    percentileCore h.buckets p = specPercentile h p := by
  have hw : stopState h.buckets p =
      (specStopIdx (h.buckets.map Prod.snd) (specTarget h p),
       specTarget h p -
         ((h.buckets.map Prod.snd).take
           (specStopIdx (h.buckets.map Prod.snd) (specTarget h p))).sum) :=
    walk_eq (h.buckets.map Prod.snd) (specTarget h p)
  have hsb : stopBucket h.buckets p =
      specStopIdx (h.buckets.map Prod.snd) (specTarget h p) := by
    rw [stopBucket, hw]
    exact min_eq_left (by omega)
  simp only [percentileCore, specPercentile, hsb, hw]
  by_cases hcase :
      specStopIdx (h.buckets.map Prod.snd) (specTarget h p) + 1 = h.buckets.length
  · rw [if_pos (show specStopIdx (h.buckets.map Prod.snd) (specTarget h p) =
        h.buckets.length - 1 by omega), if_pos hcase]
  · rw [if_neg (show ¬specStopIdx (h.buckets.map Prod.snd) (specTarget h p) =
        h.buckets.length - 1 by omega), if_neg hcase]

/-- **C1.** For every percentile-eligible histogram (kind in
`{exponential, linear, enumerated, boolean}`, nonempty buckets with
non-negative counts) and every `0 ≤ p ≤ 100`, `percentile` follows the
specified algorithm `specPercentile`: target `(p/100) * total_count`, walk
buckets in ascending boundary order stopping at the first bucket with
`remaining - freq ≤ 0` (else subtracting `freq`), and when the stopping
bucket is not the last one, return
`lower_boundary + width * remaining / freq` with `width` the next bucket's
boundary minus the stopping bucket's boundary. -/
theorem C1_percentile_follows_spec_algorithm (h : Histogram) (p : ℚ)
    (hk : h.kind ∈ eligibleKinds) (hp0 : 0 ≤ p) (hp1 : p ≤ 100)
    (hne : h.buckets ≠ []) (hnn : ∀ q ∈ h.buckets.map Prod.snd, 0 ≤ q) :
    percentile h p = some (specPercentile h p) := by
  have hcne : h.buckets.map Prod.snd ≠ [] := fun hnil => hne (List.map_eq_nil_iff.mp hnil)
  have hS : 0 ≤ (h.buckets.map Prod.snd).sum := List.sum_nonneg hnn
  have hdiv : p / 100 ≤ 1 := (div_le_one (by norm_num)).mpr hp1
  have ht : specTarget h p ≤ (h.buckets.map Prod.snd).sum := by
    rw [specTarget]
    exact mul_le_of_le_one_left hS hdiv
  have hj' := walk_fst_lt (h.buckets.map Prod.snd) (specTarget h p) hcne ht
  rw [walk_eq] at hj'
  simp only [List.length_map] at hj'
  simp only [percentile]
  rw [if_pos (⟨hp0, hp1⟩ : 0 ≤ p ∧ p ≤ 100), if_pos hk, if_neg hne]
  exact congrArg some (percentileCore_eq_spec h p (by omega))

theorem C1_witness :
    ("exponential" ∈ eligibleKinds) ∧
    percentile (Histogram.mk "W" "exponential" [(0, 1), (2, 3)]) 50 =
      some (specPercentile (Histogram.mk "W" "exponential" [(0, 1), (2, 3)]) 50) :=
  ⟨by decide,
   C1_percentile_follows_spec_algorithm (Histogram.mk "W" "exponential" [(0, 1), (2, 3)])
     50 (by decide) (by norm_num) (by norm_num) (by decide) (by norm_num)⟩

/-- **C6.** For every percentile-eligible histogram and every `p` in
`[0, 100]`, when the bucket at which the cumulative walk stops is the last
bucket (`stopBucket = length - 1`; in particular whenever all mass falls in
the last bucket), `percentile` returns NaN rather than an interpolated
value. -/
theorem C6_percentile_nan_at_last_bucket (h : Histogram) (p : ℚ)
    (hp0 : 0 ≤ p) (hp1 : p ≤ 100) (hk : h.kind ∈ eligibleKinds)
    (hne : h.buckets ≠ [])
    (hstop : stopBucket h.buckets p = h.buckets.length - 1) :
    percentile h p = some PyFloat.nan := by
  simp only [percentile]
  rw [if_pos (⟨hp0, hp1⟩ : 0 ≤ p ∧ p ≤ 100), if_pos hk, if_neg hne]
  rw [percentileCore, if_pos hstop]

theorem C6_witness :
    stopBucket ([(0, 0), (1, 0), (2, 5)] : List (ℚ × ℚ)) 50 = 2 ∧
    percentile (Histogram.mk "W" "linear" [(0, 0), (1, 0), (2, 5)]) 50 =
      some PyFloat.nan :=
  ⟨by norm_num +decide [stopBucket, stopState, walk],
   C6_percentile_nan_at_last_bucket (Histogram.mk "W" "linear" [(0, 0), (1, 0), (2, 5)])
     50 (by norm_num) (by norm_num) (by decide) (by decide)
     (by norm_num +decide [stopBucket, stopState, walk])⟩

/-- **C3.** Construction from a dense numeric sequence of length
`bucket_count + 5` discards the trailing 5 metadata values: the result is
identical to constructing from the first `bucket_count` values alone. -/
theorem C3_dense_metadata_discarded (d : HistogramDefinition) (name : String)
    (raw : List ℚ) (h5 : raw.length = d.nBuckets + 5) :
    constructDense name raw d = constructDense name (raw.take d.nBuckets) d := by
  have h1 : denseValues raw d = raw.take d.nBuckets := by
    rw [denseValues, if_neg (by omega), h5]
    norm_num
  have h2 : denseValues (raw.take d.nBuckets) d = raw.take d.nBuckets := by
    rw [denseValues, if_pos]
    rw [List.length_take]
    omega
  rw [constructDense, constructDense, h1, h2]

theorem C3_witness :
    ([0, 2, 0, 9, 9, 9, 9, 9] : List ℚ).length =
      (HistogramDefinition.mk "linear" 3 [0, 1, 2]).nBuckets + 5 ∧
    constructDense "W" [0, 2, 0, 9, 9, 9, 9, 9]
        (HistogramDefinition.mk "linear" 3 [0, 1, 2]) =
      constructDense "W" (([0, 2, 0, 9, 9, 9, 9, 9] : List ℚ).take 3)
        (HistogramDefinition.mk "linear" 3 [0, 1, 2]) :=
  ⟨by decide,
   C3_dense_metadata_discarded (HistogramDefinition.mk "linear" 3 [0, 1, 2]) "W"
     [0, 2, 0, 9, 9, 9, 9, 9] (by decide)⟩

/-- Keys produced by the reindexing step are exactly the requested index. -/
lemma reindex_some_keys (s : List (ℚ × ℚ)) (idx : List ℚ) (bl : List (ℚ × ℚ))
    (h : reindex s idx = some bl) : bl.map Prod.fst = idx ∧ bl.length = idx.length := by
  induction idx generalizing bl with
  | nil =>
    simp only [reindex, Option.some.injEq] at h
    subst h
    simp
  | cons r rest ih =>
    simp only [reindex] at h
    cases hf : s.find? (fun e => decide (e.1 = r)) with
    | none => rw [hf] at h; simp at h
    | some e =>
      rw [hf] at h
      cases hr : reindex s rest with
      | none => rw [hr] at h; simp at h
      | some tail =>
        rw [hr] at h
        simp only [Option.some.injEq] at h
        subst h
        have := ih tail hr
        simp [this.1, this.2]

/-- **C8.** Every successfully constructed bucket series — dense path,
sparse path, and the `+` combination — has exactly `bucket_count` entries
whose keys are `bucket_boundaries` in order (assuming the definition's
declared bucket count matches its boundary list, an invariant of the
external schema). -/
theorem C8_buckets_match_boundaries (d : HistogramDefinition)
    (hn : d.nBuckets = d.ranges.length) :
    (∀ name raw h, constructDense name raw d = some h →
      h.buckets.length = d.nBuckets ∧ h.buckets.map Prod.fst = d.ranges) ∧
    (∀ name entries,
      (constructSparse name entries d).buckets.length = d.nBuckets ∧
      (constructSparse name entries d).buckets.map Prod.fst = d.ranges) ∧
    (∀ a b h, combine a b d = some h →
      h.buckets.length = d.nBuckets ∧ h.buckets.map Prod.fst = d.ranges) := by
  refine ⟨?_, ?_, ?_⟩
  · intro name raw h hc
    simp only [constructDense, Option.map_eq_some'] at hc
    obtain ⟨bl, hbl, hh⟩ := hc
    simp only [mkSeries] at hbl
    by_cases hlen : (denseValues raw d).length = d.ranges.length
    · rw [if_pos hlen] at hbl
      cases hbl
      subst hh
      constructor
      · simp [List.length_zip]
        omega
      · exact List.map_fst_zip _ _ (by omega)
    · rw [if_neg hlen] at hbl
      exact absurd hbl (by simp)
  · intro name entries
    constructor
    · simp [constructSparse, hn]
    · simp only [constructSparse, List.map_map]
      have hcomp : (Prod.fst ∘ fun r => (r, (lookupEntry entries r).getD 0)) =
          (id : ℚ → ℚ) := rfl
      rw [hcomp, List.map_id]
  · intro a b h hc
    simp only [combine] at hc
    by_cases hab : a.buckets.map Prod.fst = b.buckets.map Prod.fst
    · rw [if_pos hab] at hc
      simp only [constructFromSeries, Option.map_eq_some'] at hc
      obtain ⟨bl, hbl, hh⟩ := hc
      subst hh
      have := reindex_some_keys _ _ _ hbl
      exact ⟨by rw [this.2, hn], this.1⟩
    · rw [if_neg hab] at hc
      exact absurd hc (by simp)

theorem C8_witness :
    (HistogramDefinition.mk "linear" 2 [0, 1]).nBuckets =
      (HistogramDefinition.mk "linear" 2 [0, 1]).ranges.length ∧
    (constructSparse "W" [(0, 3)] (HistogramDefinition.mk "linear" 2 [0, 1])).buckets.length =
      (HistogramDefinition.mk "linear" 2 [0, 1]).nBuckets :=
  ⟨by decide,
   ((C8_buckets_match_boundaries (HistogramDefinition.mk "linear" 2 [0, 1])
     (by decide)).2.1 "W" [(0, 3)]).1⟩

/-! ### Helper lemmas about label lookup -/

/-- Label lookup in a series built by mapping over its own index finds the
mapped pair of the first occurrence of the label. -/
lemma seriesGet_map_index (idx : List ℚ) (g : ℚ → ℚ) (r : ℚ) (hr : r ∈ idx) :
    seriesGet (idx.map (fun q => (q, g q))) r = some (g r) := by
  induction idx with
  | nil => simp at hr
  | cons r0 rest ih =>
    by_cases h0 : r0 = r
    · subst h0
      simp [seriesGet, List.find?_cons]
    · have hr' : r ∈ rest := by
        cases hr with
        | head => exact absurd rfl h0
        | tail _ hm => exact hm
      simpa [seriesGet, List.find?_cons, h0] using ih hr'

/-- With pairwise-distinct integer keys, dictionary lookup of a present
key's numeric value returns exactly that key's count. -/
lemma lookupEntry_of_mem (entries : List (Int × ℚ)) (k : Int) (v : ℚ)
    (hnd : (entries.map Prod.fst).Nodup) (hm : (k, v) ∈ entries) :
    lookupEntry entries ((k : Int) : ℚ) = some v := by
  induction entries with
  | nil => simp at hm
  | cons e t ih =>
    by_cases he : ((e.1 : ℚ) = (k : ℚ))
    · have hek : e.1 = k := by exact_mod_cast he
      cases hm with
      | head =>
        simp [lookupEntry, List.find?_cons, he]
      | tail _ hmt =>
        exfalso
        have : k ∈ t.map Prod.fst := List.mem_map.mpr ⟨(k, v), hmt, rfl⟩
        rw [List.map_cons, List.nodup_cons] at hnd
        exact hnd.1 (hek ▸ this)
    · have hmt : (k, v) ∈ t := by
        cases hm with
        | head => exact absurd rfl he
        | tail _ hmt => exact hmt
      rw [List.map_cons, List.nodup_cons] at hnd
      have hfalse : (decide ((e.1 : ℚ) = ((k : Int) : ℚ))) = false := by
        simpa using he
      rw [lookupEntry, List.find?_cons, hfalse]
      exact ih hnd.2 hmt

/-- A list element on which the predicate is false does not affect `find?`. -/
lemma find?_append_middle {α : Type} (p : α → Bool) (x : α) (l1 l2 : List α)
    (hx : p x = false) : (l1 ++ x :: l2).find? p = (l1 ++ l2).find? p := by
  induction l1 with
  | nil => simp [List.find?_cons, hx]
  | cons a t ih =>
    simp only [List.cons_append, List.find?_cons]
    cases ha : p a with
    | true => rfl
    | false => exact ih

/-- **C2 counterexample.** The claim asserts positional lookup of sparse
keys.  On the sparse input `{"2": 7}` with boundaries `[0, 1, 4]`, the code
(label alignment, `constructSparse`) drops the entry because no boundary
*label* equals 2, while the claimed positional semantics
(`constructSparseByPosition`) would put count 7 at boundary position 2
(boundary 4).  The two results differ. -/
theorem C2_counterexample :
    constructSparse "H" [(2, 7)] (HistogramDefinition.mk "linear" 3 [0, 1, 4]) =
      Histogram.mk "H" "linear" [(0, 0), (1, 0), (4, 0)] ∧
    constructSparseByPosition "H" [(2, 7)] (HistogramDefinition.mk "linear" 3 [0, 1, 4]) =
      Histogram.mk "H" "linear" [(0, 0), (1, 0), (4, 7)] ∧
    constructSparse "H" [(2, 7)] (HistogramDefinition.mk "linear" 3 [0, 1, 4]) ≠
      constructSparseByPosition "H" [(2, 7)] (HistogramDefinition.mk "linear" 3 [0, 1, 4]) := by
  have h1 : constructSparse "H" [(2, 7)] (HistogramDefinition.mk "linear" 3 [0, 1, 4]) =
      Histogram.mk "H" "linear" [(0, 0), (1, 0), (4, 0)] := by
    norm_num +decide [constructSparse, lookupEntry, List.find?]
  have h2 : constructSparseByPosition "H" [(2, 7)]
      (HistogramDefinition.mk "linear" 3 [0, 1, 4]) =
      Histogram.mk "H" "linear" [(0, 0), (1, 0), (4, 7)] := by
    norm_num +decide [constructSparseByPosition, List.range_succ, List.find?]
  refine ⟨h1, h2, ?_⟩
  rw [h1, h2]
  intro hcontra
  have hb := congrArg Histogram.buckets hcontra
  have h70 : (0 : ℚ) = 7 := by
    simpa using congrArg (fun l => (l.getD 2 ((0 : ℚ), (0 : ℚ))).2) hb
  norm_num at h70

/-- **C2 (amended).** Sparse construction casts each key to an integer and
matches it against the boundary *labels* (values) of `bucket_boundaries`
rather than by position: the keys of the result are the boundaries in
order, a boundary equal to no integer-cast key gets count exactly 0, and a
boundary equal to some key's integer cast gets exactly that key's count. -/
theorem C2_sparse_label_alignment (d : HistogramDefinition) (name : String)
    (entries : List (Int × ℚ)) (hnd : (entries.map Prod.fst).Nodup) :
    (constructSparse name entries d).buckets.map Prod.fst = d.ranges ∧
    (∀ r ∈ d.ranges, (∀ e ∈ entries, ((e.1 : Int) : ℚ) ≠ r) →
      seriesGet (constructSparse name entries d).buckets r = some 0) ∧
    (∀ k v, (k, v) ∈ entries → ((k : Int) : ℚ) ∈ d.ranges →
      seriesGet (constructSparse name entries d).buckets ((k : Int) : ℚ) = some v) := by
  refine ⟨?_, ?_, ?_⟩
  · simp only [constructSparse, List.map_map]
    have hcomp : (Prod.fst ∘ fun r => (r, (lookupEntry entries r).getD 0)) =
        (id : ℚ → ℚ) := rfl
    rw [hcomp, List.map_id]
  · intro r hr habs
    rw [constructSparse]
    rw [seriesGet_map_index d.ranges _ r hr]
    have : lookupEntry entries r = none := by
      rw [lookupEntry]
      rw [List.find?_eq_none.mpr]
      · rfl
      · intro e he
        simpa using habs e he
    rw [this]
    rfl
  · intro k v hm hr
    rw [constructSparse]
    rw [seriesGet_map_index d.ranges _ _ hr]
    rw [lookupEntry_of_mem entries k v hnd hm]
    rfl

theorem C2_witness :
    (([(0, 5), (4, 7)] : List (Int × ℚ)).map Prod.fst).Nodup ∧
    seriesGet (constructSparse "W" [(0, 5), (4, 7)]
      (HistogramDefinition.mk "exponential" 3 [0, 1, 4])).buckets ((4 : Int) : ℚ) =
      some 7 :=
  ⟨by decide,
   (C2_sparse_label_alignment (HistogramDefinition.mk "exponential" 3 [0, 1, 4]) "W"
     [(0, 5), (4, 7)] (by decide)).2.2 4 7 (by decide) (by norm_num)⟩

/-- **C10.** A sparse entry whose integer-cast key matches no boundary label
is silently dropped: construction still succeeds (it is total), the result
is identical to construction without that entry, the schema's boundaries
are all present, and boundaries matched by no key keep count 0. -/
theorem C10_unmatched_sparse_key_dropped (d : HistogramDefinition) (name : String)
    (pre post : List (Int × ℚ)) (k : Int) (v : ℚ)
    (hk : ((k : Int) : ℚ) ∉ d.ranges) :
    constructSparse name (pre ++ (k, v) :: post) d = constructSparse name (pre ++ post) d ∧
    (constructSparse name (pre ++ (k, v) :: post) d).buckets.map Prod.fst = d.ranges ∧
    (∀ r ∈ d.ranges, (∀ e ∈ pre ++ (k, v) :: post, ((e.1 : Int) : ℚ) ≠ r) →
      seriesGet (constructSparse name (pre ++ (k, v) :: post) d).buckets r = some 0) := by
  refine ⟨?_, ?_, ?_⟩
  · rw [constructSparse, constructSparse]
    congr 1
    apply List.map_congr_left
    intro r hr
    have hkr : ((k : Int) : ℚ) ≠ r := fun hh => hk (hh ▸ hr)
    rw [lookupEntry, lookupEntry,
      find?_append_middle _ (k, v) pre post (by simpa using hkr)]
  · simp only [constructSparse, List.map_map]
    have hcomp : (Prod.fst ∘ fun r => (r, (lookupEntry (pre ++ (k, v) :: post) r).getD 0)) =
        (id : ℚ → ℚ) := rfl
    rw [hcomp, List.map_id]
  · intro r hr habs
    rw [constructSparse]
    rw [seriesGet_map_index d.ranges _ r hr]
    have : lookupEntry (pre ++ (k, v) :: post) r = none := by
      rw [lookupEntry]
      rw [List.find?_eq_none.mpr]
      · rfl
      · intro e he
        simpa using habs e he
    rw [this]
    rfl

theorem C10_witness :
    (((9 : Int) : ℚ) ∉ (HistogramDefinition.mk "linear" 3 [0, 1, 4]).ranges) ∧
    constructSparse "W" [(0, 5), (9, 7)] (HistogramDefinition.mk "linear" 3 [0, 1, 4]) =
      constructSparse "W" [(0, 5)] (HistogramDefinition.mk "linear" 3 [0, 1, 4]) :=
  ⟨by norm_num,
   (C10_unmatched_sparse_key_dropped (HistogramDefinition.mk "linear" 3 [0, 1, 4]) "W"
     [(0, 5)] [] 9 7 (by norm_num)).1⟩

/-- **C4 counterexample.** A `count`-kind histogram whose first boundary is
5 stores count 7 at boundary position 0, but `get_value` performs a pandas
*label* lookup `self.buckets[0]` of the literal label 0, which raises
`KeyError` here instead of returning 7 as the claim demands. -/
theorem C4_counterexample :
    (Histogram.mk "N" "count" [(5, 7)]).kind = "count" ∧
    ((Histogram.mk "N" "count" [(5, 7)]).buckets.map Prod.snd).getD 0 0 = 7 ∧
    getValue (Histogram.mk "N" "count" [(5, 7)]) false = Value.err ∧
    getValue (Histogram.mk "N" "count" [(5, 7)]) true = Value.err ∧
    Value.err ≠ Value.scalar 7 := by
  refine ⟨rfl, by norm_num, ?_, ?_, by decide⟩ <;>
    norm_num +decide [getValue, seriesGet, eligibleKinds, List.find?]

/-- **C4 (amended).** `get_value` on a `count`-kind histogram returns the
count stored at the bucket whose boundary *label* is 0 — which is the bucket
at position 0 exactly when the schema's first boundary is 0 — for both
values of `only_median`. -/
theorem C4_count_scalar (h : Histogram) (c : ℚ) (rest : List (ℚ × ℚ)) (m : Bool)
    (hk : h.kind = "count") (hb : h.buckets = ((0 : ℚ), c) :: rest) :
    getValue h m = Value.scalar c := by
  have hnk : h.kind ∉ eligibleKinds := by rw [hk]; decide
  rw [getValue, if_neg hnk, if_pos hk, hb]
  simp [seriesGet, List.find?_cons]

theorem C4_witness :
    (Histogram.mk "W" "count" [(0, 7), (1, 0), (2, 0)]).buckets =
      ((0 : ℚ), (7 : ℚ)) :: [(1, 0), (2, 0)] ∧
    getValue (Histogram.mk "W" "count" [(0, 7), (1, 0), (2, 0)]) false = Value.scalar 7 :=
  ⟨rfl,
   C4_count_scalar (Histogram.mk "W" "count" [(0, 7), (1, 0), (2, 0)]) 7 [(1, 0), (2, 0)]
     false rfl rfl⟩

/-- **C5 counterexample.** A `flag`-kind histogram with boundaries
`[0, 2, 4]` has count 1 at boundary position 1 (boundary 2), so the claim
demands `true`; the code's label lookup `self.buckets[1]` finds no label 1
and raises `KeyError` instead. -/
theorem C5_counterexample :
    (Histogram.mk "N" "flag" [(0, 0), (2, 1), (4, 0)]).kind = "flag" ∧
    ((Histogram.mk "N" "flag" [(0, 0), (2, 1), (4, 0)]).buckets.map Prod.snd).getD 1 0 = 1 ∧
    getValue (Histogram.mk "N" "flag" [(0, 0), (2, 1), (4, 0)]) false = Value.err ∧
    getValue (Histogram.mk "N" "flag" [(0, 0), (2, 1), (4, 0)]) true = Value.err ∧
    Value.err ≠ Value.flagVal true := by
  refine ⟨rfl, by norm_num, ?_, ?_, by decide⟩ <;>
    norm_num +decide [getValue, seriesGet, eligibleKinds, List.find?]

/-- **C5 (amended).** `get_value` on a `flag`-kind histogram returns `true`
iff the bucket whose boundary *label* is 1 — the bucket at position 1
exactly when the boundaries begin `0, 1, …` — has count exactly 1, for both
values of `only_median`. -/
theorem C5_flag_bool (h : Histogram) (c : ℚ) (m : Bool)
    (hk : h.kind = "flag") (hb : seriesGet h.buckets 1 = some c) :
    getValue h m = Value.flagVal (decide (c = 1)) := by
  have hnk : h.kind ∉ eligibleKinds := by rw [hk]; decide
  have hnc : ¬h.kind = "count" := by rw [hk]; decide
  rw [getValue, if_neg hnk, if_neg hnc, if_pos hk, hb]

theorem C5_witness :
    seriesGet (Histogram.mk "W" "flag" [(0, 0), (1, 1), (2, 0)]).buckets 1 =
      some 1 ∧
    getValue (Histogram.mk "W" "flag" [(0, 0), (1, 1), (2, 0)]) false =
      Value.flagVal (decide ((1 : ℚ) = 1)) :=
  ⟨by norm_num +decide [seriesGet, List.find?],
   C5_flag_bool (Histogram.mk "W" "flag" [(0, 0), (1, 1), (2, 0)]) 1 false rfl
     (by norm_num +decide [seriesGet, List.find?])⟩

/-! ### Helper lemmas for the `+` combination -/

lemma seriesAdd_keys (a b : List (ℚ × ℚ)) (hlen : a.length ≤ b.length) :
    (seriesAdd a b).map Prod.fst = a.map Prod.fst := by
  induction a generalizing b with
  | nil => simp [seriesAdd]
  | cons x t ih =>
    cases b with
    | nil => simp at hlen
    | cons y u =>
      simp only [seriesAdd] at ih ⊢
      simp only [List.zipWith_cons_cons, List.map_cons, List.cons.injEq]
      exact ⟨by simp, ih u (by simpa using hlen)⟩

/-- Reindexing ignores entries whose label is outside the requested index. -/
lemma reindex_skip (e : ℚ × ℚ) (t : List (ℚ × ℚ)) (idx : List ℚ) (h : e.1 ∉ idx) :
    reindex (e :: t) idx = reindex t idx := by
  induction idx with
  | nil => rfl
  | cons r rest ih =>
    have hne : e.1 ≠ r := fun hh => h (hh ▸ List.mem_cons_self r rest)
    simp only [reindex, List.find?_cons]
    rw [show (decide (e.1 = r)) = false from by simpa using hne]
    rw [ih (fun hm => h (List.mem_cons_of_mem r hm))]

/-- Reindexing a series by its own (duplicate-free) index returns it
unchanged. -/
lemma reindex_self (s : List (ℚ × ℚ)) (hnd : (s.map Prod.fst).Nodup) :
    reindex s (s.map Prod.fst) = some s := by
  induction s with
  | nil => rfl
  | cons e t ih =>
    rw [List.map_cons, List.nodup_cons] at hnd
    have hfind : List.find? (fun x => decide (x.1 = e.1)) (e :: t) = some e := by
      simp [List.find?_cons]
    simp only [List.map_cons, reindex, hfind]
    rw [reindex_skip e t (t.map Prod.fst) hnd.1, ih hnd.2]

/-- **C7.** For histograms `a` and `b` with identical (duplicate-free)
bucket boundaries matching the freshly re-resolved definition `d`,
`combine` (the `+` operator) produces a *new* `HistogramValue` carrying
`a`'s name whose count at every boundary is the sum of `a`'s and `b`'s
counts there (`seriesAdd`, the elementwise sum keeping the labels); in
particular `combine h h` doubles every bucket count while keeping the
boundaries. -/
theorem C7_combine_elementwise_sum (a b : Histogram) (d : HistogramDefinition)
    (hab : a.buckets.map Prod.fst = b.buckets.map Prod.fst)
    (hd : d.ranges = a.buckets.map Prod.fst)
    (hnd : (a.buckets.map Prod.fst).Nodup)
    (hn : d.nBuckets = a.buckets.length) :
    combine a b d = some (Histogram.mk a.name d.kind (seriesAdd a.buckets b.buckets)) ∧
    (seriesAdd a.buckets b.buckets).map Prod.fst = a.buckets.map Prod.fst ∧
    seriesAdd a.buckets a.buckets = a.buckets.map (fun e => (e.1, e.2 + e.2)) := by
  have hlen : a.buckets.length = b.buckets.length := by
    simpa using congrArg List.length hab
  have hkeys : (seriesAdd a.buckets b.buckets).map Prod.fst = a.buckets.map Prod.fst :=
    seriesAdd_keys _ _ (le_of_eq hlen)
  have hslen : (seriesAdd a.buckets b.buckets).length = a.buckets.length := by
    simpa using congrArg List.length hkeys
  refine ⟨?_, hkeys, ?_⟩
  · rw [combine, if_pos hab, constructFromSeries]
    rw [if_pos (hslen.trans hn.symm)]
    have hidx : d.ranges = (seriesAdd a.buckets b.buckets).map Prod.fst := by
      rw [hd, hkeys]
    rw [hidx, reindex_self _ (by rw [hkeys]; exact hnd)]
    rfl
  · rw [seriesAdd, List.zipWith_same]

theorem C7_witness :
    ((Histogram.mk "N" "linear" [(0, 1), (1, 2)]).buckets.map Prod.fst =
      (Histogram.mk "N" "linear" [(0, 3), (1, 4)]).buckets.map Prod.fst) ∧
    combine (Histogram.mk "N" "linear" [(0, 1), (1, 2)])
        (Histogram.mk "N" "linear" [(0, 3), (1, 4)])
        (HistogramDefinition.mk "linear" 2 [0, 1]) =
      some (Histogram.mk "N" "linear"
        (seriesAdd (Histogram.mk "N" "linear" [(0, 1), (1, 2)]).buckets
          (Histogram.mk "N" "linear" [(0, 3), (1, 4)]).buckets)) :=
  ⟨by decide,
   (C7_combine_elementwise_sum (Histogram.mk "N" "linear" [(0, 1), (1, 2)])
     (Histogram.mk "N" "linear" [(0, 3), (1, 4)])
     (HistogramDefinition.mk "linear" 2 [0, 1])
     (by decide) (by decide) (by decide) (by decide)).1⟩

/-! ### Helper lemmas for percentile monotonicity -/

lemma sorted_getD_lt (l : List ℚ) (hs : l.Sorted (fun a c => a < c)) (i j : Nat)
    (hij : i < j) (hj : j < l.length) : l.getD i 0 < l.getD j 0 := by
  have hi : i < l.length := lt_trans hij hj
  rw [List.getD_eq_getElem l 0 hi, List.getD_eq_getElem l 0 hj]
  exact hs.get_strictMono (Fin.mk_lt_mk.mpr hij)

lemma sorted_getD_le (l : List ℚ) (hs : l.Sorted (fun a c => a < c)) (i j : Nat)
    (hij : i ≤ j) (hj : j < l.length) : l.getD i 0 ≤ l.getD j 0 := by
  rcases Nat.eq_or_lt_of_le hij with rfl | hlt
  · exact le_refl _
  · exact le_of_lt (sorted_getD_lt l hs i j hlt hj)

lemma getD_nonneg_of_forall (l : List ℚ) (hnn : ∀ q ∈ l, 0 ≤ q) (i : Nat)
    (hi : i < l.length) : 0 ≤ l.getD i 0 := by
  rw [List.getD_eq_getElem l 0 hi]
  exact hnn _ (List.getElem_mem hi)

/-- Monotonicity of the percentile computation in `p`, at points where both
results are finite values: the walk's stop offset is monotone in the target
and the interpolation is monotone inside a bucket. -/
lemma percentileCore_mono (b : List (ℚ × ℚ)) (p₁ p₂ x y : ℚ)
    (hnn : ∀ q ∈ b.map Prod.snd, 0 ≤ q)
    (hs : (b.map Prod.fst).Sorted (fun a c => a < c))
    (hp0 : 0 ≤ p₁) (hpp : p₁ ≤ p₂)
    (hx : percentileCore b p₁ = PyFloat.val x)
    (hy : percentileCore b p₂ = PyFloat.val y) : x ≤ y := by
  -- the NaN branch was not taken
  have h1 : stopBucket b p₁ ≠ b.length - 1 := by
    intro hcon
    rw [percentileCore, if_pos hcon] at hx
    exact PyFloat.noConfusion hx
  have h2 : stopBucket b p₂ ≠ b.length - 1 := by
    intro hcon
    rw [percentileCore, if_pos hcon] at hy
    exact PyFloat.noConfusion hy
  rw [percentileCore, if_neg h1] at hx
  rw [percentileCore, if_neg h2] at hy
  obtain ⟨hf1, hx'⟩ := interp_eq_val _ _ _ _ _ hx
  obtain ⟨hf2, hy'⟩ := interp_eq_val _ _ _ _ _ hy
  -- the stop bucket is the walk offset, strictly before the last bucket
  have hb1 : stopBucket b p₁ < b.length - 1 :=
    lt_of_le_of_ne (min_le_right _ _) h1
  have hb2 : stopBucket b p₂ < b.length - 1 :=
    lt_of_le_of_ne (min_le_right _ _) h2
  have hw1 : stopBucket b p₁ = (stopState b p₁).1 := by
    rcases Nat.lt_or_ge (stopState b p₁).1 (b.length - 1) with hlt | hge
    · rw [stopBucket, min_eq_left (Nat.le_of_lt hlt)]
    · exact absurd (by rw [stopBucket]; exact min_eq_right hge) h1
  have hw2 : stopBucket b p₂ = (stopState b p₂).1 := by
    rcases Nat.lt_or_ge (stopState b p₂).1 (b.length - 1) with hlt | hge
    · rw [stopBucket, min_eq_left (Nat.le_of_lt hlt)]
    · exact absurd (by rw [stopBucket]; exact min_eq_right hge) h2
  have hi1n : stopBucket b p₁ < b.length := by omega
  have hi2n : stopBucket b p₂ < b.length := by omega
  have hlen : (b.map Prod.snd).length = b.length := List.length_map _ _
  have hlenf : (b.map Prod.fst).length = b.length := List.length_map _ _
  -- targets
  have hS : 0 ≤ (b.map Prod.snd).sum := List.sum_nonneg hnn
  have hp2 : 0 ≤ p₂ := le_trans hp0 hpp
  have ht2 : 0 ≤ p₂ / 100 * (b.map Prod.snd).sum :=
    mul_nonneg (div_nonneg hp2 (by norm_num)) hS
  have hT : p₁ / 100 * (b.map Prod.snd).sum ≤ p₂ / 100 * (b.map Prod.snd).sum := by
    apply mul_le_mul_of_nonneg_right _ hS
    exact (div_le_div_iff_of_pos_right (by norm_num)).mpr hpp
  -- the stop offset is monotone in p
  have hij : stopBucket b p₁ ≤ stopBucket b p₂ := by
    rw [hw1, hw2]
    exact walk_fst_mono (b.map Prod.snd) _ _ hT
  -- the remaining target at the stop
  have e₁ : stopState b p₁ =
      (specStopIdx (b.map Prod.snd) (p₁ / 100 * (b.map Prod.snd).sum),
       p₁ / 100 * (b.map Prod.snd).sum -
         ((b.map Prod.snd).take
           (specStopIdx (b.map Prod.snd) (p₁ / 100 * (b.map Prod.snd).sum))).sum) :=
    walk_eq _ _
  have e₂ : stopState b p₂ =
      (specStopIdx (b.map Prod.snd) (p₂ / 100 * (b.map Prod.snd).sum),
       p₂ / 100 * (b.map Prod.snd).sum -
         ((b.map Prod.snd).take
           (specStopIdx (b.map Prod.snd) (p₂ / 100 * (b.map Prod.snd).sum))).sum) :=
    walk_eq _ _
  have e₁2 : (stopState b p₁).2 =
      p₁ / 100 * (b.map Prod.snd).sum -
        ((b.map Prod.snd).take ((stopState b p₁).1)).sum := by
    rw [e₁]
  have e₂2 : (stopState b p₂).2 =
      p₂ / 100 * (b.map Prod.snd).sum -
        ((b.map Prod.snd).take ((stopState b p₂).1)).sum := by
    rw [e₂]
  -- break-condition and nonnegativity facts about the remaining target
  have hsw1 : (stopState b p₁).1 < (b.map Prod.snd).length := by
    rw [← hw1, hlen]
    exact hi1n
  have hr1f : (stopState b p₁).2 ≤ (b.map Prod.snd).getD ((stopState b p₁).1) 0 :=
    walk_snd_le (b.map Prod.snd) _ hsw1
  have hr2nn : 0 ≤ (stopState b p₂).2 :=
    walk_snd_nonneg (b.map Prod.snd) _ hnn ht2
  -- frequencies at the stops are strictly positive
  have hfpos1 : 0 < (b.map Prod.snd).getD (stopBucket b p₁) 0 :=
    lt_of_le_of_ne
      (getD_nonneg_of_forall _ hnn _ (by rw [hlen]; exact hi1n)) (Ne.symm hf1)
  have hfpos2 : 0 < (b.map Prod.snd).getD (stopBucket b p₂) 0 :=
    lt_of_le_of_ne
      (getD_nonneg_of_forall _ hnn _ (by rw [hlen]; exact hi2n)) (Ne.symm hf2)
  -- bucket widths at the stops are strictly positive
  have hwpos1 : 0 < (b.map Prod.fst).getD (stopBucket b p₁ + 1) 0 -
      (b.map Prod.fst).getD (stopBucket b p₁) 0 := by
    have := sorted_getD_lt (b.map Prod.fst) hs (stopBucket b p₁) (stopBucket b p₁ + 1)
      (Nat.lt_succ_self _) (by rw [hlenf]; omega)
    linarith
  have hwpos2 : 0 < (b.map Prod.fst).getD (stopBucket b p₂ + 1) 0 -
      (b.map Prod.fst).getD (stopBucket b p₂) 0 := by
    have := sorted_getD_lt (b.map Prod.fst) hs (stopBucket b p₂) (stopBucket b p₂ + 1)
      (Nat.lt_succ_self _) (by rw [hlenf]; omega)
    linarith
  rcases Nat.eq_or_lt_of_le hij with hcase | hcase
  · -- both percentiles stop at the same bucket: same lower boundary, width
    -- and frequency, and the remaining target is monotone in p
    have hidx : (stopState b p₁).1 = (stopState b p₂).1 := by
      rw [← hw1, ← hw2, hcase]
    have hrr : (stopState b p₁).2 ≤ (stopState b p₂).2 := by
      rw [e₁2, e₂2, hidx]
      linarith
    rw [hx', hy', ← hcase]
    have hmul : ((b.map Prod.fst).getD (stopBucket b p₁ + 1) 0 -
          (b.map Prod.fst).getD (stopBucket b p₁) 0) * (stopState b p₁).2 ≤
        ((b.map Prod.fst).getD (stopBucket b p₁ + 1) 0 -
          (b.map Prod.fst).getD (stopBucket b p₁) 0) * (stopState b p₂).2 :=
      mul_le_mul_of_nonneg_left hrr (le_of_lt hwpos1)
    have hdiv := (div_le_div_iff_of_pos_right hfpos1).mpr hmul
    linarith
  · -- the second percentile stops strictly later: the first result is at
    -- most the upper boundary of its stopping bucket, which is at most the
    -- lower boundary of the later stopping bucket, which is at most the
    -- second result
    have hr1f' : (stopState b p₁).2 ≤ (b.map Prod.snd).getD (stopBucket b p₁) 0 := by
      rw [← hw1] at hr1f
      exact hr1f
    have hnum : ((b.map Prod.fst).getD (stopBucket b p₁ + 1) 0 -
          (b.map Prod.fst).getD (stopBucket b p₁) 0) * (stopState b p₁).2 ≤
        ((b.map Prod.fst).getD (stopBucket b p₁ + 1) 0 -
          (b.map Prod.fst).getD (stopBucket b p₁) 0) *
          (b.map Prod.snd).getD (stopBucket b p₁) 0 :=
      mul_le_mul_of_nonneg_left hr1f' (le_of_lt hwpos1)
    have hq := (div_le_div_iff_of_pos_right hfpos1).mpr hnum
    have hcan : ((b.map Prod.fst).getD (stopBucket b p₁ + 1) 0 -
          (b.map Prod.fst).getD (stopBucket b p₁) 0) *
          (b.map Prod.snd).getD (stopBucket b p₁) 0 /
          (b.map Prod.snd).getD (stopBucket b p₁) 0 =
        (b.map Prod.fst).getD (stopBucket b p₁ + 1) 0 -
          (b.map Prod.fst).getD (stopBucket b p₁) 0 :=
      mul_div_cancel_right₀ _ hf1
    have step1 : x ≤ (b.map Prod.fst).getD (stopBucket b p₁ + 1) 0 := by
      rw [hx']
      linarith
    have step2 : (b.map Prod.fst).getD (stopBucket b p₁ + 1) 0 ≤
        (b.map Prod.fst).getD (stopBucket b p₂) 0 :=
      sorted_getD_le _ hs _ _ (Nat.succ_le_of_lt hcase) (by rw [hlenf]; exact hi2n)
    have step3 : (b.map Prod.fst).getD (stopBucket b p₂) 0 ≤ y := by
      have hq2 : 0 ≤ ((b.map Prod.fst).getD (stopBucket b p₂ + 1) 0 -
            (b.map Prod.fst).getD (stopBucket b p₂) 0) * (stopState b p₂).2 /
            (b.map Prod.snd).getD (stopBucket b p₂) 0 :=
        div_nonneg (mul_nonneg (le_of_lt hwpos2) hr2nn) (le_of_lt hfpos2)
      rw [hy']
      linarith
    linarith

/-- **C9 counterexample.** A linear histogram with positive total mass whose
first bucket is empty: `percentile(h, 0)` stops at bucket 0 with remaining
target 0 and frequency 0, so the NumPy interpolation computes `0/0 = NaN`,
and the claimed chain `percentile(h,0) <= percentile(h,50)` is false under
IEEE comparison (NaN compares false). -/
theorem C9_counterexample :
    (Histogram.mk "N" "linear" [(0, 0), (1, 1), (2, 0)]).kind ∈ eligibleKinds ∧
    0 < totalCount (Histogram.mk "N" "linear" [(0, 0), (1, 1), (2, 0)]) ∧
    percentile (Histogram.mk "N" "linear" [(0, 0), (1, 1), (2, 0)]) 0 =
      some PyFloat.nan ∧
    pyLeOpt (percentile (Histogram.mk "N" "linear" [(0, 0), (1, 1), (2, 0)]) 0)
      (percentile (Histogram.mk "N" "linear" [(0, 0), (1, 1), (2, 0)]) 50) = false := by
  have h0 : percentile (Histogram.mk "N" "linear" [(0, 0), (1, 1), (2, 0)]) 0 =
      some PyFloat.nan := by
    norm_num +decide [percentile, percentileCore, stopBucket, stopState, walk, interp,
      eligibleKinds]
  have h50 : percentile (Histogram.mk "N" "linear" [(0, 0), (1, 1), (2, 0)]) 50 =
      some (PyFloat.val (3 / 2)) := by
    norm_num +decide [percentile, percentileCore, stopBucket, stopState, walk, interp,
      eligibleKinds]
  refine ⟨by decide, by norm_num [totalCount], h0, ?_⟩
  rw [h0, h50]
  rfl

/-- **C9 (amended).** For every histogram of percentile-eligible kind with
positive total mass, non-negative counts and strictly increasing
boundaries, *whenever the three percentile computations all return finite
values*, they are monotone: `percentile(h,0) ≤ percentile(h,50) ≤
percentile(h,100)`.  (The counterexample shows the restriction to finite
values is necessary: a NaN result breaks the chain.) -/
theorem C9_percentile_monotone (h : Histogram) (x y z : ℚ)
    (hk : h.kind ∈ eligibleKinds)
    (_hpos : 0 < totalCount h)
    (hnn : ∀ q ∈ h.buckets.map Prod.snd, 0 ≤ q)
    (hs : (h.buckets.map Prod.fst).Sorted (fun a c => a < c))
    (h0 : percentile h 0 = some (PyFloat.val x))
    (h50 : percentile h 50 = some (PyFloat.val y))
    (h100 : percentile h 100 = some (PyFloat.val z)) :
    x ≤ y ∧ y ≤ z := by
  have hinv : ∀ (p : ℚ) (w : ℚ), 0 ≤ p → p ≤ 100 →
      percentile h p = some (PyFloat.val w) →
      percentileCore h.buckets p = PyFloat.val w := by
    intro p w hp0 hp1 hp
    rw [percentile, if_pos (⟨hp0, hp1⟩ : 0 ≤ p ∧ p ≤ 100), if_pos hk] at hp
    by_cases hemp : h.buckets = []
    · rw [if_pos hemp] at hp
      exact Option.noConfusion hp
    · rw [if_neg hemp] at hp
      exact Option.some.inj hp
  have hc0 := hinv 0 x (by norm_num) (by norm_num) h0
  have hc50 := hinv 50 y (by norm_num) (by norm_num) h50
  have hc100 := hinv 100 z (by norm_num) (by norm_num) h100
  exact ⟨percentileCore_mono h.buckets 0 50 x y hnn hs (by norm_num) (by norm_num) hc0 hc50,
    percentileCore_mono h.buckets 50 100 y z hnn hs (by norm_num) (by norm_num) hc50 hc100⟩

theorem C9_witness :
    percentile (Histogram.mk "W" "linear" [(0, 1), (1, 1), (2, 1), (3, 0)]) 0 =
      some (PyFloat.val 0) ∧
    ((0 : ℚ) ≤ 3 / 2 ∧ (3 / 2 : ℚ) ≤ 3) :=
  ⟨by norm_num +decide [percentile, percentileCore, stopBucket, stopState, walk, interp,
     eligibleKinds],
   C9_percentile_monotone (Histogram.mk "W" "linear" [(0, 1), (1, 1), (2, 1), (3, 0)])
     0 (3 / 2) 3 (by decide) (by norm_num [totalCount]) (by norm_num) (by decide)
     (by norm_num +decide [percentile, percentileCore, stopBucket, stopState, walk, interp,
       eligibleKinds])
     (by norm_num +decide [percentile, percentileCore, stopBucket, stopState, walk, interp,
       eligibleKinds])
     (by norm_num +decide [percentile, percentileCore, stopBucket, stopState, walk, interp,
       eligibleKinds])⟩

end Moztelemetry
